import Mathlib

/-!
Verification development for the `ruby-flasher` remote provisioning client
(`src/flasher.rs`).  The stateful SSH code is shallowly embedded: channel
traffic becomes explicit lists of messages, callbacks become accumulated
effect traces, byte buffers become `List Nat` (each element a byte value),
and Rust `String`s become `List Char`.
-/

set_option maxRecDepth 8192

namespace Flasher

/-- Character list of a string literal (Rust `String` / `&str` model). -/
def chars (s : String) : List Char := s.toList

/-- Rust strings are modelled as lists of characters. -/
abbrev Str := List Char

/-- The apostrophe character (byte 39), used in several Rust format strings. -/
def squoteC : Char := Char.ofNat 39

/-- Model of Rust `str::trim` (drop whitespace at both ends; the Rust
original uses Unicode whitespace, all text in this program is ASCII). -/
def trimChars (s : Str) : Str :=
  ((s.dropWhile Char.isWhitespace).reverse.dropWhile Char.isWhitespace).reverse

/-- `startsWithList m s` is true when `m` is an initial segment of `s`. -/
def startsWithList : List Char → List Char → Bool
  | [], _ => true
  | _ :: _, [] => false
  | a :: as, b :: bs => a = b && startsWithList as bs

/-- Model of Rust `str::contains(m)`: `m` occurs contiguously inside `s`. -/
def hasSubList (m : List Char) : List Char → Bool
  | [] => startsWithList m []
  | c :: rest => startsWithList m (c :: rest) || hasSubList m rest

/-- Model of Rust `str::split(sep)`: split on every separator occurrence,
keeping empty pieces (n separators yield n+1 pieces). -/
def splitSep (sep : Char) : List Char → List (List Char)
  | [] => [[]]
  | c :: rest =>
    if c = sep then [] :: splitSep sep rest
    else
      match splitSep sep rest with
      | [] => [[c]]
      | h :: t => (c :: h) :: t

/-- Decimal rendering of a number, as the Rust `{}` format of an integer. -/
def natChars (n : Nat) : Str := (toString n).toList

/-- UTF-8 continuation byte test (0x80..=0xBF). -/
def isCont (b : Nat) : Bool := decide (0x80 ≤ b) && decide (b ≤ 0xBF)

/-- Lower bound for the first continuation byte of a multi-byte sequence
(0xE0 and 0xF0 leads restrict it, per strict UTF-8). -/
def cont1Lo (b : Nat) : Nat := if b = 0xE0 then 0xA0 else if b = 0xF0 then 0x90 else 0x80

/-- Upper bound for the first continuation byte of a multi-byte sequence
(0xED and 0xF4 leads restrict it, per strict UTF-8). -/
def cont1Hi (b : Nat) : Nat := if b = 0xED then 0x9F else if b = 0xF4 then 0x8F else 0xBF

/-- First-continuation-byte test for lead byte `lead`. -/
def isCont1 (lead b : Nat) : Bool := decide (cont1Lo lead ≤ b) && decide (b ≤ cont1Hi lead)

/-- Strict UTF-8 decoding of one code point from the front of a byte list:
the rules of Rust `str::from_utf8` (no overlong forms, no surrogates,
maximum U+10FFFF).  Returns the character and the remaining bytes. -/
def decodeOne : List Nat → Option (Char × List Nat)
  | [] => none
  | b :: rest =>
    if b < 0x80 then some (Char.ofNat b, rest)
    else if 0xC2 ≤ b ∧ b ≤ 0xDF then
      match rest with
      | b1 :: r =>
        if isCont b1 then some (Char.ofNat ((b - 0xC0) * 0x40 + (b1 - 0x80)), r) else none
      | [] => none
    else if 0xE0 ≤ b ∧ b ≤ 0xEF then
      match rest with
      | b1 :: b2 :: r =>
        if isCont1 b b1 && isCont b2 then
          some (Char.ofNat (((b - 0xE0) * 0x40 + (b1 - 0x80)) * 0x40 + (b2 - 0x80)), r)
        else none
      | _ => none
    else if 0xF0 ≤ b ∧ b ≤ 0xF4 then
      match rest with
      | b1 :: b2 :: b3 :: r =>
        if isCont1 b b1 && isCont b2 && isCont b3 then
          some (Char.ofNat ((((b - 0xF0) * 0x40 + (b1 - 0x80)) * 0x40 + (b2 - 0x80)) * 0x40
            + (b3 - 0x80)), r)
        else none
      | _ => none
    else none

theorem decodeOne_length {l : List Nat} {c : Char} {r : List Nat}
    (h : decodeOne l = some (c, r)) : r.length < l.length := by
  match l with
  | [] => simp [decodeOne] at h
  | b :: rest =>
    simp only [decodeOne] at h
    repeat' split at h
    all_goals first
      | (simp only [Option.some.injEq, Prod.mk.injEq] at h
         obtain ⟨-, h2⟩ := h
         subst h2
         simp only [List.length_cons]
         omega)
      | simp at h

theorem decodeOne_append {l : List Nat} {c : Char} {r : List Nat} (e : List Nat)
    (h : decodeOne l = some (c, r)) : decodeOne (l ++ e) = some (c, r ++ e) := by
  match l with
  | [] => simp [decodeOne] at h
  | b :: rest =>
    simp only [List.cons_append]
    simp only [decodeOne] at h ⊢
    repeat' split at h
    all_goals first
      | (simp only [Option.some.injEq, Prod.mk.injEq] at h
         obtain ⟨h1, h2⟩ := h
         subst h1
         subst h2
         simp_all [List.cons_append])
      | simp at h
    all_goals repeat' rw [if_neg (by omega)]

/-- Fuel-driven maximal-valid-prefix split (fuel at least the byte count). -/
def splitValidAux : Nat → List Nat → Str × List Nat
  | 0, l => ([], l)
  | fuel + 1, l =>
    match decodeOne l with
    | none => ([], l)
    | some (c, rest) =>
      let p := splitValidAux fuel rest
      (c :: p.1, p.2)

/-- Model of the decoding split in `run_command` (flasher.rs lines 291-308):
decode the longest valid UTF-8 prefix of the buffer (Rust
`Utf8Error::valid_up_to`), returning the decoded text and the undecoded
remainder. -/
def splitValid (l : List Nat) : Str × List Nat := splitValidAux l.length l

theorem splitValidAux_nil (n : Nat) : splitValidAux n [] = ([], []) := by
  cases n with
  | zero => rfl
  | succ n => simp [splitValidAux, decodeOne]

theorem splitValidAux_fuelIrrel : ∀ (n m : Nat) (l : List Nat), l.length ≤ n → l.length ≤ m →
    splitValidAux n l = splitValidAux m l := by
  intro n
  induction n with
  | zero =>
    intro m l hn hm
    have : l = [] := List.length_eq_zero.mp (Nat.le_zero.mp hn)
    subst this
    rw [splitValidAux_nil, splitValidAux_nil]
  | succ n ih =>
    intro m l hn hm
    match hd : decodeOne l with
    | none =>
      cases m with
      | zero =>
        have : l = [] := List.length_eq_zero.mp (Nat.le_zero.mp hm)
        subst this
        rw [splitValidAux_nil, splitValidAux_nil]
      | succ m => simp only [splitValidAux, hd]
    | some p =>
      obtain ⟨c, rest⟩ := p
      have hlen := decodeOne_length hd
      cases m with
      | zero =>
        have : l = [] := List.length_eq_zero.mp (Nat.le_zero.mp hm)
        subst this
        simp [decodeOne] at hd
      | succ m =>
        simp only [splitValidAux, hd]
        rw [ih m rest (by omega) (by omega)]

theorem splitValidAux_fuel (n : Nat) (l : List Nat) (h : l.length ≤ n) :
    splitValidAux n l = splitValid l :=
  splitValidAux_fuelIrrel n l.length l h (Nat.le_refl _)

theorem splitValid_none {l : List Nat} (h : decodeOne l = none) :
    splitValid l = ([], l) := by
  cases l with
  | nil => simp [splitValid, splitValidAux]
  | cons b rest => simp only [splitValid, List.length_cons, splitValidAux, h]

theorem splitValid_some {l : List Nat} {c : Char} {rest : List Nat}
    (h : decodeOne l = some (c, rest)) :
    splitValid l = (c :: (splitValid rest).1, (splitValid rest).2) := by
  cases l with
  | nil => simp [decodeOne] at h
  | cons b tail =>
    have hlen := decodeOne_length h
    simp only [List.length_cons] at hlen
    simp only [splitValid, List.length_cons, splitValidAux, h]
    rw [splitValidAux_fuel tail.length rest (by omega)]
    simp [splitValid]

/-- Incrementality of the maximal-valid-prefix split: feeding extra bytes
after `a` first decodes everything `a` alone decodes, then continues from
`a`'s undecoded remainder. -/
theorem splitValid_append (a b : List Nat) :
    splitValid (a ++ b) =
      ((splitValid a).1 ++ (splitValid ((splitValid a).2 ++ b)).1,
       (splitValid ((splitValid a).2 ++ b)).2) := by
  match hd : decodeOne a with
  | none =>
    rw [splitValid_none hd]
    simp
  | some p =>
    obtain ⟨c, rest⟩ := p
    rw [splitValid_some hd, splitValid_some (decodeOne_append b hd)]
    rw [splitValid_append rest b]
    simp
termination_by a.length
decreasing_by exact decodeOne_length hd

/-- The Unicode replacement character U+FFFD. -/
def repChar : Char := Char.ofNat 0xFFFD

/-- Length of the maximal subpart of an ill-formed UTF-8 subsequence at the
front of the list (Unicode "substitution of maximal subparts", the policy
of Rust `String::from_utf8_lossy`).  Only meaningful when `decodeOne`
fails on a nonempty list; always at least 1. -/
def invalidLen : List Nat → Nat
  | [] => 1
  | b :: rest =>
    if 0xC2 ≤ b ∧ b ≤ 0xDF then 1
    else if 0xE0 ≤ b ∧ b ≤ 0xEF then
      match rest with
      | b1 :: _ => if isCont1 b b1 then 2 else 1
      | [] => 1
    else if 0xF0 ≤ b ∧ b ≤ 0xF4 then
      match rest with
      | b1 :: b2 :: _ => if isCont1 b b1 then (if isCont b2 then 3 else 2) else 1
      | [b1] => if isCont1 b b1 then 2 else 1
      | [] => 1
    else 1

theorem invalidLen_pos (l : List Nat) : 0 < invalidLen l := by
  match l with
  | [] => simp [invalidLen]
  | b :: rest =>
    simp only [invalidLen]
    repeat' split
    all_goals omega

/-- Fuel-driven lenient UTF-8 decoding. -/
def utf8LossyAux : Nat → List Nat → Str
  | 0, _ => []
  | _ + 1, [] => []
  | fuel + 1, l@(_ :: _) =>
    match decodeOne l with
    | some (c, rest) => c :: utf8LossyAux fuel rest
    | none => repChar :: utf8LossyAux fuel (l.drop (invalidLen l))

/-- Model of Rust `String::from_utf8_lossy`: decode, replacing each maximal
subpart of an ill-formed subsequence by U+FFFD. -/
def utf8Lossy (l : List Nat) : Str := utf8LossyAux l.length l

/-- Bytes of an ASCII string (every character below 0x80, so the UTF-8
encoding is one byte per character). -/
def asciiBytes (s : String) : List Nat := s.toList.map Char.toNat

/-- The channel messages of `russh::ChannelMsg` that `flasher.rs` inspects;
every other variant is collapsed into `other` (the code treats them all
with a catch-all arm). -/
inductive ChannelMsg where
  | data (d : List Nat)
  | extendedData (d : List Nat) (ext : Nat)
  | exitStatus (s : Nat)
  | eof
  | success
  | other
deriving DecidableEq

/-- The possible outcomes of one `tokio::time::timeout(_, channel.wait())`:
a message arrived, the channel reported no more messages (`None`), or the
timeout elapsed. -/
inductive AckEvent where
  | msg (m : ChannelMsg)
  | closed
  | timeout
deriving DecidableEq

/-- Model of `wait_for_acknowledgment` (flasher.rs 163–194): resolve the
next channel event into success or an error message. -/
def wait_for_acknowledgment : AckEvent → Except Str Unit
  | .msg (.data d) =>
    match d with
    | [] => .error (chars "Empty SCP response")
    | b :: rest =>
      if b = 0 then .ok ()
      else if b = 1 then
        .error (chars "SCP error: " ++
          (if rest = [] then chars "Unknown SCP error" else utf8Lossy rest))
      else if b = 2 then .error (chars "SCP fatal error")
      else .error (chars "Unknown SCP response: " ++ natChars b)
  | .msg .success => .ok ()
  | .msg _ => .ok ()
  | .closed => .error (chars "Channel closed unexpectedly")
  | .timeout => .error (chars "Timeout waiting for SCP acknowledgment")

/-- C8: `wait_for_ack`, bounded by a timeout, resolves each possible next
channel event as follows: a Data message with first byte 0 succeeds; first
byte 1 fails with the remaining bytes decoded leniently as the message (or
a fixed unknown-error text if there are none); first byte 2 fails with a
fixed fatal message; an empty Data message or an unrecognized leading byte
fails; a generic success signal message succeeds; any other message kind is
treated as success; channel end-of-messages fails with "closed
unexpectedly"; timeout expiry fails with a timeout error. -/
theorem C8_wait_for_ack_cases :
    (∀ rest : List Nat,
      wait_for_acknowledgment (.msg (.data (0 :: rest))) = .ok ()) ∧
    (∀ (x : Nat) (rest : List Nat),
      wait_for_acknowledgment (.msg (.data (1 :: x :: rest)))
        = .error (chars "SCP error: " ++ utf8Lossy (x :: rest))) ∧
    (wait_for_acknowledgment (.msg (.data [1]))
        = .error (chars "SCP error: Unknown SCP error")) ∧
    (∀ rest : List Nat,
      wait_for_acknowledgment (.msg (.data (2 :: rest)))
        = .error (chars "SCP fatal error")) ∧
    (wait_for_acknowledgment (.msg (.data []))
        = .error (chars "Empty SCP response")) ∧
    (∀ (k : Nat) (rest : List Nat),
      wait_for_acknowledgment (.msg (.data ((k + 3) :: rest)))
        = .error (chars "Unknown SCP response: " ++ natChars (k + 3))) ∧
    (wait_for_acknowledgment (.msg .success) = .ok ()) ∧
    (∀ (d : List Nat) (ext : Nat),
      wait_for_acknowledgment (.msg (.extendedData d ext)) = .ok ()) ∧
    (∀ s : Nat, wait_for_acknowledgment (.msg (.exitStatus s)) = .ok ()) ∧
    (wait_for_acknowledgment (.msg .eof) = .ok ()) ∧
    (wait_for_acknowledgment (.msg .other) = .ok ()) ∧
    (wait_for_acknowledgment .closed = .error (chars "Channel closed unexpectedly")) ∧
    (wait_for_acknowledgment .timeout
        = .error (chars "Timeout waiting for SCP acknowledgment")) := by
  refine ⟨fun rest => rfl, fun x rest => rfl, rfl, fun rest => rfl, rfl,
    fun k rest => ?_, rfl, fun d ext => rfl, fun s => rfl, rfl, rfl, rfl, rfl⟩
  have h0 : ¬ (k + 3 = 0) := by omega
  have h1 : ¬ (k + 3 = 1) := by omega
  have h2 : ¬ (k + 3 = 2) := by omega
  simp [wait_for_acknowledgment, h0, h1, h2]

/-- Model of `anyhow::Error` as seen by `is_auth_error`: its display text
and the display texts of its chain of `source()` causes. -/
structure ErrorModel where
  msg : Str
  chain : List Str
deriving DecidableEq

/-- Rust `str::to_lowercase` (ASCII range; all matched vocabulary is ASCII). -/
def lowerStr (s : Str) : Str := s.map Char.toLower

/-- `subs.iter().any(|m| s.contains(m))`. -/
def containsAny (s : Str) (subs : List Str) : Bool := subs.any (fun m => hasSubList m s)

/-- The substrings checked against the stringified error itself
(flasher.rs 84–95). -/
def authVocabMain : List Str :=
  [chars "authentication", chars "auth", chars "password", chars "login",
   chars "permission denied", chars "access denied", chars "authentication failed",
   chars "userauth", chars "no such user", chars "user unknown"]

/-- The substrings checked against each stringified cause in the error
chain (flasher.rs 102–106).  Note: "no such user" is absent here. -/
def authVocabChain : List Str :=
  [chars "authentication", chars "auth", chars "password",
   chars "permission denied", chars "access denied"]

/-- Model of `is_auth_error` (flasher.rs 74–114): the Rust early returns
become a disjunction, and the `while let` walk over the `source()` chain
becomes `List.any` over the modelled chain. -/
def is_auth_error (e : ErrorModel) : Bool :=
  let errorStr := lowerStr e.msg
  hasSubList (chars "authentication failed: invalid credentials") errorStr ||
  containsAny errorStr authVocabMain ||
  e.chain.any (fun c => containsAny (lowerStr c) authVocabChain)

/-- A generic network-reset error: no authentication-related substring. -/
def netResetErr : ErrorModel := ⟨chars "Connection reset by peer", []⟩

/-- An error whose own text is generic but whose cause chain says
"no such user". -/
def noSuchUserChainErr : ErrorModel := ⟨chars "connection error", [chars "no such user"]⟩

/-- C10: `extract_filename` model (flasher.rs 399–406).  `Path::file_name`
is modelled with Unix path semantics: components are the slash-separated
segments with empty and "." segments dropped; the file name is the last
component unless it is "..", in which case there is none.
`unwrap_or_default` turns a missing file name into the empty string, and
`to_str` always succeeds here because the model's strings are valid UTF-8
(the `Err` branch of the source is reachable only for non-UTF-8 names,
which this model cannot represent). -/
def pathFileName (src : Str) : Option Str :=
  let segs := (splitSep '/' src).filter (fun s => !s.isEmpty && !(s == ['.']))
  match segs.getLast? with
  | none => none
  | some s => if s == ['.', '.'] then none else some s

/-- Model of `extract_filename` (flasher.rs 399–406). -/
def extract_filename (src : Str) : Except Str Str :=
  match pathFileName src with
  | some s => .ok s
  | none => .ok []

/-- The remote destination `flash` derives (flasher.rs 441–442):
`format!("/tmp/{}", fname)` applied to the extracted file name. -/
def flashDst (src : Str) : Except Str Str :=
  (extract_filename src).map (fun f => chars "/tmp/" ++ f)

theorem startsWithList_iff (m s : List Char) :
    startsWithList m s = true ↔ ∃ q, s = m ++ q := by
  induction m generalizing s with
  | nil => simp [startsWithList]
  | cons a as ih =>
    cases s with
    | nil => simp [startsWithList]
    | cons b bs =>
      simp only [startsWithList, Bool.and_eq_true, decide_eq_true_eq, ih,
        List.cons_append, List.cons.injEq]
      constructor
      · rintro ⟨ha, q, hq⟩
        exact ⟨q, ha.symm, hq⟩
      · rintro ⟨q, hb, hq⟩
        exact ⟨hb.symm, q, hq⟩

theorem hasSubList_iff (m s : List Char) :
    hasSubList m s = true ↔ ∃ p q, s = p ++ m ++ q := by
  induction s with
  | nil =>
    simp only [hasSubList, startsWithList_iff]
    constructor
    · rintro ⟨q, hq⟩
      exact ⟨[], q, by simpa using hq⟩
    · rintro ⟨p, q, hpq⟩
      have := hpq.symm
      rw [List.append_assoc] at this
      rcases List.append_eq_nil.mp this with ⟨hp, hmq⟩
      rcases List.append_eq_nil.mp hmq with ⟨hm, hq⟩
      exact ⟨[], by simp [hm]⟩
  | cons c rest ih =>
    simp only [hasSubList, Bool.or_eq_true, startsWithList_iff, ih]
    constructor
    · rintro (⟨q, hq⟩ | ⟨p, q, hpq⟩)
      · exact ⟨[], q, by simpa using hq⟩
      · exact ⟨c :: p, q, by simp [hpq]⟩
    · rintro ⟨p, q, hpq⟩
      cases p with
      | nil =>
        left
        exact ⟨q, by simpa using hpq⟩
      | cons p0 ps =>
        right
        simp only [List.cons_append, List.cons.injEq] at hpq
        exact ⟨ps, q, hpq.2⟩

theorem hasSubList_of_part {A B s : List Char} (P Q : List Char)
    (hAB : A = P ++ B ++ Q) (h : hasSubList A s = true) : hasSubList B s = true := by
  rw [hasSubList_iff] at h ⊢
  obtain ⟨p, q, hs⟩ := h
  subst hAB
  exact ⟨p ++ P, Q ++ q, by simp [hs, List.append_assoc]⟩

/-- C7 counterexample: an error whose own text is a generic connection
error but whose cause chain contains "no such user" is not classified as
an authentication error, because the chain check omits that substring. -/
theorem C7_counterexample_no_such_user_chain :
    (noSuchUserChainErr.chain.any
      fun c => hasSubList (chars "no such user") (lowerStr c)) = true ∧
    is_auth_error noSuchUserChainErr = false := by decide

/-- C7 (amended): if the error's own text contains "permission denied",
"authentication failed" or "no such user" (case-insensitively), or its
cause-chain text contains "permission denied" or "authentication failed",
then `is_auth_error` returns true; "no such user" is matched only against
the error's own text, not the cause chain; a generic network-reset error
with none of the authentication-related substrings yields false. -/
theorem C7_amended_auth_classification : ∀ e : ErrorModel,
    (containsAny (lowerStr e.msg)
        [chars "permission denied", chars "authentication failed", chars "no such user"]
          = true →
      is_auth_error e = true) ∧
    ((e.chain.any fun c =>
        containsAny (lowerStr c) [chars "permission denied", chars "authentication failed"])
          = true →
      is_auth_error e = true) ∧
    is_auth_error netResetErr = false := by
  intro e
  refine ⟨fun hmain => ?_, fun hchain => ?_, by decide⟩
  · have : containsAny (lowerStr e.msg) authVocabMain = true := by
      simp only [containsAny, List.any_eq_true] at hmain ⊢
      obtain ⟨m, hm, hp⟩ := hmain
      simp only [List.mem_cons, List.not_mem_nil, or_false] at hm
      rcases hm with hm | hm | hm <;> subst hm
      · exact ⟨chars "permission denied", by simp [authVocabMain], hp⟩
      · exact ⟨chars "authentication failed", by simp [authVocabMain], hp⟩
      · exact ⟨chars "no such user", by simp [authVocabMain], hp⟩
    simp [is_auth_error, this]
  · have : (e.chain.any fun c => containsAny (lowerStr c) authVocabChain) = true := by
      simp only [List.any_eq_true] at hchain ⊢
      obtain ⟨c, hc, hp⟩ := hchain
      refine ⟨c, hc, ?_⟩
      simp only [containsAny, List.any_eq_true] at hp ⊢
      obtain ⟨m, hm, hsub⟩ := hp
      simp only [List.mem_cons, List.not_mem_nil, or_false] at hm
      rcases hm with hm | hm <;> subst hm
      · exact ⟨chars "permission denied", by simp [authVocabChain], hsub⟩
      · refine ⟨chars "authentication", by simp [authVocabChain], ?_⟩
        exact hasSubList_of_part [] (chars " failed") (by decide) hsub
    simp [is_auth_error, this]

/-- C7 amended, witness: a concrete "permission denied" error is
classified as an authentication failure. -/
theorem C7_amended_auth_classification_witness :
    is_auth_error ⟨chars "Permission denied (publickey)", []⟩ = true :=
  (C7_amended_auth_classification ⟨chars "Permission denied (publickey)", []⟩).1 (by decide)

/-- C10: for every source path (whose final component, like every string of
the model, is valid UTF-8) `extract_filename` returns `Ok`; a path with no
final file-name component — one ending in ".." or a bare root — yields
`Ok ""` rather than an error, so `flash` derives the remote destination
"/tmp/" (fixed remote directory plus empty base name) instead of reporting
a local validation error. -/
theorem C10_extract_filename_total :
    (∀ src : Str, ∃ f, extract_filename src = .ok f) ∧
    extract_filename (chars "/firmware/..") = .ok [] ∧
    extract_filename (chars "/") = .ok [] ∧
    flashDst (chars "/firmware/..") = .ok (chars "/tmp/") ∧
    extract_filename (chars "/data/fw.tar.gz") = .ok (chars "fw.tar.gz") := by
  refine ⟨fun src => ?_, rfl, rfl, rfl, rfl⟩
  unfold extract_filename
  cases pathFileName src <;> exact ⟨_, rfl⟩

/-- 64 KiB, the chunk size of `transfer_file` (flasher.rs 227). -/
def CHUNK_SIZE : Nat := 1024 * 64

/-- The SCP header line `format!("C0644 {} filename\n", file_size)`
(flasher.rs 202). -/
def scpHeader (fileSize : Nat) : Str :=
  chars "C0644 " ++ natChars fileSize ++ chars " filename\n"

/-- Bytes of the header line (`cmd.as_bytes()`); the header is ASCII, so
its UTF-8 bytes are its character codes. -/
def headerBytes (fileSize : Nat) : List Nat := (scpHeader fileSize).map Char.toNat

/-- `total_size` of `transfer_file` (flasher.rs 203): file + header + null. -/
def totalSize (contents : List Nat) : Nat :=
  contents.length + (headerBytes contents.length).length + 1

/-- Fuel-driven chunking; fuel at least the list length. -/
def chunksOfAux : Nat → List Nat → List (List Nat)
  | 0, _ => []
  | _ + 1, [] => []
  | fuel + 1, l@(_ :: _) => l.take CHUNK_SIZE :: chunksOfAux fuel (l.drop CHUNK_SIZE)

/-- The chunk sequence of the `for chunk_start in (0..len).step_by(CHUNK_SIZE)`
loop (flasher.rs 229–231): successive 64 KiB slices, the last one shorter. -/
def chunksOf (l : List Nat) : List (List Nat) := chunksOfAux l.length l

/-- Percentage as computed at flasher.rs 217/236/246:
`(sent / total * 100).min(100.0)`.  The Rust computation is on `f64`; all
values here are exactly representable ratios, modelled in `ℚ`. -/
def pct (sent total : Nat) : ℚ := min ((sent : ℚ) / (total : ℚ) * 100) 100

/-- Observable actions of `transfer_file`, in order: channel exec, data
sends, progress reports (the three numbers of the formatted
"Progress: {:.1}% ({} / {} bytes)" status line), plain status lines, and
the eof/close teardown calls. -/
inductive TEffect where
  | exec (c : Str)
  | send (d : List Nat)
  | progress (percent : ℚ) (sent total : Nat)
  | status (s : Str)
  | eofCh
  | closeCh
deriving DecidableEq

/-- The send/progress pairs of the chunk loop (flasher.rs 229–241). -/
def chunkEffects : List (List Nat) → Nat → Nat → List TEffect
  | [], _, _ => []
  | c :: cs, sent, total =>
    .send c :: .progress (pct (sent + c.length) total) (sent + c.length) total ::
      chunkEffects cs (sent + c.length) total

/-- Model of `transfer_file` (flasher.rs 196–274).  The file has already
been read into `contents`; `a1 a2 a3` are the outcomes of the three
acknowledgment waits, and `eofRes`/`closeRes` are the outcomes of the
`channel.eof()` and `channel.close()` teardown calls (`none` = success,
`some e` = the error that `?` propagates).  Sends are assumed delivered
(send timeouts are a further failure mode not needed by the claims).  The
drain loop consumes leftovers and produces no observable effect. -/
def transfer_file (contents : List Nat) (dst : Str)
    (a1 a2 a3 : AckEvent) (eofRes closeRes : Option Str) :
    Except Str Unit × List TEffect :=
  let total := totalSize contents
  let hdr := headerBytes contents.length
  let t0 : List TEffect := [.exec (chars "scp -t " ++ dst)]
  match wait_for_acknowledgment a1 with
  | .error e => (.error e, t0)
  | .ok _ =>
    let t1 := t0 ++ [.send hdr, .progress (pct hdr.length total) hdr.length total]
    match wait_for_acknowledgment a2 with
    | .error e => (.error e, t1)
    | .ok _ =>
      let t2 := t1 ++ chunkEffects (chunksOf contents) hdr.length total
      let sentAll := hdr.length + contents.length + 1
      let t3 := t2 ++ [.send [0], .progress (pct sentAll total) sentAll total]
      match wait_for_acknowledgment a3 with
      | .error e => (.error e, t3)
      | .ok _ =>
        match eofRes with
        | some e => (.error e, t3 ++ [.eofCh])
        | none =>
          match closeRes with
          | some e => (.error e, t3 ++ [.eofCh, .closeCh])
          | none =>
            (.ok (), t3 ++ [.eofCh, .closeCh, .status (chars "File sent successfully!")])

/-- The data payloads sent over the channel, in order. -/
def sends (t : List TEffect) : List (List Nat) :=
  t.filterMap fun e => match e with | .send d => some d | _ => none

/-- The progress reports (percent, sent, total), in order. -/
def progresses (t : List TEffect) : List (ℚ × Nat × Nat) :=
  t.filterMap fun e => match e with | .progress p s tt => some (p, s, tt) | _ => none

/-- The reported progress percentages, in order. -/
def progressPercents (t : List TEffect) : List ℚ := (progresses t).map (fun x => x.1)

/-- Cumulative totals: the running counter value after each send. -/
def prefixTotals : Nat → List Nat → List Nat
  | _, [] => []
  | acc, x :: xs => (acc + x) :: prefixTotals (acc + x) xs

theorem chunksOfAux_flatten : ∀ (n : Nat) (l : List Nat), l.length ≤ n →
    (chunksOfAux n l).flatten = l := by
  intro n
  induction n with
  | zero =>
    intro l hl
    have : l = [] := List.length_eq_zero.mp (Nat.le_zero.mp hl)
    subst this
    rfl
  | succ n ih =>
    intro l hl
    cases l with
    | nil => rfl
    | cons b rest =>
      simp only [chunksOfAux, List.flatten_cons]
      rw [ih ((b :: rest).drop CHUNK_SIZE)
        (by simp only [List.length_drop, List.length_cons] at hl ⊢; unfold CHUNK_SIZE; omega)]
      exact List.take_append_drop _ _

theorem chunksOf_flatten (l : List Nat) : (chunksOf l).flatten = l :=
  chunksOfAux_flatten l.length l (Nat.le_refl _)

theorem chunksOf_sum (l : List Nat) : ((chunksOf l).map List.length).sum = l.length := by
  rw [← List.length_flatten, chunksOf_flatten]

theorem chunksOfAux_le : ∀ (n : Nat) (l : List Nat), ∀ c ∈ chunksOfAux n l,
    c.length ≤ CHUNK_SIZE := by
  intro n
  induction n with
  | zero => intro l c hc; simp [chunksOfAux] at hc
  | succ n ih =>
    intro l c hc
    cases l with
    | nil => simp [chunksOfAux] at hc
    | cons b rest =>
      simp only [chunksOfAux, List.mem_cons] at hc
      rcases hc with hc | hc
      · subst hc
        simp [List.length_take]
      · exact ih _ c hc

/-- `sent / total * 100` is monotone in `sent` (total positive), so the
reported percentages only grow. -/
theorem pct_mono {s t : Nat} (total : Nat) (hpos : 0 < total) (h : s ≤ t) :
    pct s total ≤ pct t total := by
  unfold pct
  have hc : (s : ℚ) ≤ (t : ℚ) := by exact_mod_cast h
  have hT : (0 : ℚ) < (total : ℚ) := by exact_mod_cast hpos
  gcongr

theorem pct_le_100 (s total : Nat) : pct s total ≤ 100 := min_le_right _ _

theorem pct_total (total : Nat) (h : 0 < total) : pct total total = 100 := by
  unfold pct
  rw [div_self (by exact_mod_cast h.ne')]
  norm_num

theorem totalSize_pos (contents : List Nat) : 0 < totalSize contents := by
  unfold totalSize
  omega

/-- Projection selecting data sends from the effect trace. -/
def sendProj : TEffect → Option (List Nat)
  | .send d => some d
  | _ => none

/-- Projection selecting progress reports from the effect trace. -/
def progProj : TEffect → Option (ℚ × Nat × Nat)
  | .progress p s t => some (p, s, t)
  | _ => none

theorem sends_eq (t : List TEffect) : sends t = t.filterMap sendProj := by
  unfold sends sendProj
  rfl

theorem progresses_eq (t : List TEffect) : progresses t = t.filterMap progProj := by
  unfold progresses progProj
  rfl

theorem chunkEffects_sends : ∀ (cs : List (List Nat)) (sent total : Nat),
    List.filterMap sendProj (chunkEffects cs sent total) = cs := by
  intro cs
  induction cs with
  | nil => intro sent total; rfl
  | cons c cs ih =>
    intro sent total
    simp only [chunkEffects, List.filterMap_cons, sendProj]
    rw [ih]

theorem chunkEffects_progresses : ∀ (cs : List (List Nat)) (sent total : Nat),
    List.filterMap progProj (chunkEffects cs sent total)
      = (prefixTotals sent (cs.map List.length)).map
          (fun s => (pct s total, s, total)) := by
  intro cs
  induction cs with
  | nil => intro sent total; rfl
  | cons c cs ih =>
    intro sent total
    simp only [chunkEffects, List.filterMap_cons, progProj, List.map_cons, prefixTotals]
    rw [ih]

theorem prefixTotals_mem_le : ∀ (xs : List Nat) (acc y : Nat),
    y ∈ prefixTotals acc xs → acc ≤ y := by
  intro xs
  induction xs with
  | nil => intro acc y hy; simp [prefixTotals] at hy
  | cons x xs ih =>
    intro acc y hy
    simp only [prefixTotals, List.mem_cons] at hy
    rcases hy with hy | hy
    · omega
    · have := ih (acc + x) y hy
      omega

theorem prefixTotals_sorted : ∀ (xs : List Nat) (acc : Nat),
    List.Sorted (· ≤ ·) (prefixTotals acc xs) := by
  intro xs
  induction xs with
  | nil => intro acc; simp [prefixTotals]
  | cons x xs ih =>
    intro acc
    simp only [prefixTotals, List.sorted_cons]
    exact ⟨fun b hb => prefixTotals_mem_le xs (acc + x) b hb, ih (acc + x)⟩

theorem prefixTotals_getLast : ∀ (xs : List Nat) (acc : Nat), xs ≠ [] →
    (prefixTotals acc xs).getLast? = some (acc + xs.sum) := by
  intro xs
  induction xs with
  | nil => intro acc h; exact absurd rfl h
  | cons x xs ih =>
    intro acc _
    cases xs with
    | nil => simp [prefixTotals]
    | cons y rest =>
      simp only [prefixTotals, List.getLast?_cons_cons]
      have h2 := ih (acc + x) (by simp)
      simp only [prefixTotals] at h2
      rw [h2]
      simp only [List.sum_cons, Option.some.injEq]
      omega

/-- On the success path (three positive acknowledgments, eof and close
succeed) `transfer_file` returns `Ok` and its effect trace is exec, header
send + progress, the chunk loop, the null-byte send + final progress, then
eof/drain/close and the success status line. -/
theorem transfer_file_ok (contents : List Nat) (dst : Str) (a1 a2 a3 : AckEvent)
    (h1 : wait_for_acknowledgment a1 = .ok ())
    (h2 : wait_for_acknowledgment a2 = .ok ())
    (h3 : wait_for_acknowledgment a3 = .ok ()) :
    transfer_file contents dst a1 a2 a3 none none =
      (.ok (),
        .exec (chars "scp -t " ++ dst) ::
        .send (headerBytes contents.length) ::
        .progress (pct (headerBytes contents.length).length (totalSize contents))
          (headerBytes contents.length).length (totalSize contents) ::
        (chunkEffects (chunksOf contents) (headerBytes contents.length).length
            (totalSize contents) ++
          [.send [0],
           .progress (pct (totalSize contents) (totalSize contents))
             (totalSize contents) (totalSize contents),
           .eofCh, .closeCh, .status (chars "File sent successfully!")])) := by
  have hT : (headerBytes contents.length).length + contents.length + 1
      = totalSize contents := by
    unfold totalSize
    omega
  simp only [transfer_file, h1, h2, h3, hT]
  simp [List.append_assoc]

theorem prefixTotals_append : ∀ (xs ys : List Nat) (acc : Nat),
    prefixTotals acc (xs ++ ys) = prefixTotals acc xs ++ prefixTotals (acc + xs.sum) ys := by
  intro xs
  induction xs with
  | nil => intro ys acc; simp [prefixTotals]
  | cons x xs ih =>
    intro ys acc
    simp only [List.cons_append, prefixTotals, List.sum_cons, List.append_eq]
    rw [ih ys (acc + x)]
    have : acc + x + xs.sum = acc + (x + xs.sum) := by omega
    rw [this]

theorem transfer_file_ok_progresses (contents : List Nat) (dst : Str)
    (a1 a2 a3 : AckEvent)
    (h1 : wait_for_acknowledgment a1 = .ok ())
    (h2 : wait_for_acknowledgment a2 = .ok ())
    (h3 : wait_for_acknowledgment a3 = .ok ()) :
    progresses (transfer_file contents dst a1 a2 a3 none none).2
      = (prefixTotals 0 ((headerBytes contents.length).length ::
            ((chunksOf contents).map List.length ++ [1]))).map
          (fun s => (pct s (totalSize contents), s, totalSize contents)) := by
  have hsum : (headerBytes contents.length).length
        + ((chunksOf contents).map List.length).sum + 1 = totalSize contents := by
    rw [chunksOf_sum]
    unfold totalSize
    omega
  rw [transfer_file_ok contents dst a1 a2 a3 h1 h2 h3]
  rw [progresses_eq]
  simp only [List.filterMap_cons, progProj, List.filterMap_append,
    chunkEffects_progresses]
  simp only [prefixTotals, Nat.zero_add, prefixTotals_append, List.map_cons,
    List.map_append, List.map_nil, List.sum_nil, Nat.add_zero, List.filterMap_nil]
  rw [hsum]

theorem transfer_file_ok_sends (contents : List Nat) (dst : Str) (a1 a2 a3 : AckEvent)
    (h1 : wait_for_acknowledgment a1 = .ok ())
    (h2 : wait_for_acknowledgment a2 = .ok ())
    (h3 : wait_for_acknowledgment a3 = .ok ()) :
    sends (transfer_file contents dst a1 a2 a3 none none).2
      = headerBytes contents.length :: (chunksOf contents ++ [[0]]) := by
  rw [transfer_file_ok contents dst a1 a2 a3 h1 h2 h3, sends_eq]
  simp only [List.filterMap_cons, sendProj, List.filterMap_append, chunkEffects_sends,
    List.filterMap_nil]

/-- C4: for every file size including zero, a successful `copy_to_remote`
sends exactly one header line, then the exact file bytes in order (in
64 KiB chunks), then exactly one trailing null byte, and the concatenation
of all sent bytes (header + body + null) has length equal to the
`total_size` reported in the final progress update (file size + header
length + 1). -/
theorem C4_copy_sends_exact (contents : List Nat) (dst : Str) (a1 a2 a3 : AckEvent)
    (h1 : wait_for_acknowledgment a1 = .ok ())
    (h2 : wait_for_acknowledgment a2 = .ok ())
    (h3 : wait_for_acknowledgment a3 = .ok ()) :
    (transfer_file contents dst a1 a2 a3 none none).1 = .ok () ∧
    sends (transfer_file contents dst a1 a2 a3 none none).2
      = headerBytes contents.length :: (chunksOf contents ++ [[0]]) ∧
    (sends (transfer_file contents dst a1 a2 a3 none none).2).flatten
      = headerBytes contents.length ++ contents ++ [0] ∧
    (∀ c ∈ chunksOf contents, c.length ≤ CHUNK_SIZE) ∧
    (progresses (transfer_file contents dst a1 a2 a3 none none).2).getLast?
      = some (pct (totalSize contents) (totalSize contents),
          totalSize contents, totalSize contents) ∧
    (sends (transfer_file contents dst a1 a2 a3 none none).2).flatten.length
      = totalSize contents := by
  have hsends := transfer_file_ok_sends contents dst a1 a2 a3 h1 h2 h3
  have hflat : (sends (transfer_file contents dst a1 a2 a3 none none).2).flatten
      = headerBytes contents.length ++ contents ++ [0] := by
    rw [hsends]
    simp [chunksOf_flatten, List.append_assoc]
  refine ⟨by rw [transfer_file_ok contents dst a1 a2 a3 h1 h2 h3],
    hsends, hflat, chunksOfAux_le _ _, ?_, ?_⟩
  · rw [transfer_file_ok_progresses contents dst a1 a2 a3 h1 h2 h3,
      List.getLast?_map, prefixTotals_getLast _ _ (by simp)]
    have hs : (0 : Nat) + ((headerBytes contents.length).length ::
        ((chunksOf contents).map List.length ++ [1])).sum = totalSize contents := by
      simp only [List.sum_cons, List.sum_append, List.sum_nil, chunksOf_sum, totalSize]
      omega
    rw [hs]
    rfl
  · rw [hflat]
    simp only [List.length_append, List.length_cons, List.length_nil, totalSize]
    omega

/-- C4 witness at a concrete one-byte file. -/
theorem C4_copy_sends_exact_witness :
    (transfer_file [7] (chars "/tmp/x") (.msg (.data [0])) (.msg (.data [0]))
      (.msg (.data [0])) none none).1 = .ok () :=
  (C4_copy_sends_exact [7] (chars "/tmp/x") (.msg (.data [0])) (.msg (.data [0]))
    (.msg (.data [0])) rfl rfl rfl).1

/-- C5: for every file size ≥ 0, the sequence of progress percentages
reported by `copy_to_remote` via the status sink is non-decreasing, each
percentage is capped at 100.0, and the final reported percentage equals
100.0. -/
theorem C5_progress_monotone (contents : List Nat) (dst : Str) (a1 a2 a3 : AckEvent)
    (h1 : wait_for_acknowledgment a1 = .ok ())
    (h2 : wait_for_acknowledgment a2 = .ok ())
    (h3 : wait_for_acknowledgment a3 = .ok ()) :
    List.Sorted (· ≤ ·)
      (progressPercents (transfer_file contents dst a1 a2 a3 none none).2) ∧
    (∀ p ∈ progressPercents (transfer_file contents dst a1 a2 a3 none none).2,
      p ≤ 100) ∧
    (progressPercents (transfer_file contents dst a1 a2 a3 none none).2).getLast?
      = some 100 := by
  have hp := transfer_file_ok_progresses contents dst a1 a2 a3 h1 h2 h3
  have hpos := totalSize_pos contents
  unfold progressPercents
  rw [hp, List.map_map]
  have hs : (0 : Nat) + ((headerBytes contents.length).length ::
      ((chunksOf contents).map List.length ++ [1])).sum = totalSize contents := by
    simp only [List.sum_cons, List.sum_append, List.sum_nil, chunksOf_sum, totalSize]
    omega
  refine ⟨?_, ?_, ?_⟩
  · exact List.Pairwise.map _ (fun a b hab => pct_mono _ hpos hab)
      (prefixTotals_sorted _ _)
  · intro p hmem
    simp only [List.mem_map] at hmem
    obtain ⟨s, -, rfl⟩ := hmem
    exact pct_le_100 s _
  · rw [List.getLast?_map, prefixTotals_getLast _ _ (by simp), hs]
    show some (pct (totalSize contents) (totalSize contents)) = some 100
    rw [pct_total _ hpos]

/-- C5 witness at a concrete one-byte file. -/
theorem C5_progress_monotone_witness :
    (progressPercents (transfer_file [7] (chars "/tmp/x") (.msg (.data [0]))
      (.msg (.data [0])) (.msg (.data [0])) none none).2).getLast? = some 100 :=
  (C5_progress_monotone [7] (chars "/tmp/x") (.msg (.data [0])) (.msg (.data [0]))
    (.msg (.data [0])) rfl rfl rfl).2.2

/-- The SOC query command of `flash` (flasher.rs 445). -/
def socQueryCmd : Str := chars "fw_printenv -n soc"

/-- The best-effort service-stop command of `flash` (flasher.rs 446). -/
def stopCmd : Str := chars "ruby_stop.sh || true"

/-- The unpack command of `flash` (flasher.rs 449):
`format!("sh -c 'gunzip -c {} | tar -xvC /tmp'", dst)` (the apostrophes of
the Rust literal are written via `squoteC`). -/
def unpackCmd (dst : Str) : Str :=
  chars "sh -c " ++ [squoteC] ++ chars "gunzip -c " ++ dst ++
    chars " | tar -xvC /tmp" ++ [squoteC]

/-- The upgrade command of `flash` (flasher.rs 450), parameterized by the
trimmed SOC string. -/
def upgradeCmd (soc : Str) : Str :=
  chars "sysupgrade --kernel=/tmp/uImage." ++ trimChars soc ++
    chars " --rootfs=/tmp/rootfs.squashfs." ++ trimChars soc ++ chars " -z"

/-- One remote operation of the `flash` sequence: a command run through
`run_command`, or the SCP file copy through `transfer_file` (recorded with
its destination and the payloads it sends). -/
inductive RemoteOp where
  | command (c : Str)
  | copyFile (dst : Str) (payloads : List (List Nat))
deriving DecidableEq

/-- The happy-path remote-operation sequence of `flash`
(flasher.rs 439–453): after deriving the destination from the source
file's base name, run the SOC query, the stop command, the file copy, the
unpack command and the upgrade command, in that order.  `soc` is the
output `run_command` returned for the SOC query. -/
def flashOps (src : Str) (contents : List Nat) (soc : Str) : Except Str (List RemoteOp) :=
  (extract_filename src).map fun fname =>
    let dst := chars "/tmp/" ++ fname
    [.command socQueryCmd,
     .command stopCmd,
     .copyFile dst (headerBytes contents.length :: (chunksOf contents ++ [[0]])),
     .command (unpackCmd dst),
     .command (upgradeCmd soc)]

/-- C1 counterexample: for a 130-byte file the header line
`C0644 130 filename\n` is 19 bytes (not 18), so the total number of bytes
sent is 150 (not 149). -/
theorem C1_counterexample_header_byte_count :
    headerBytes 130 = asciiBytes "C0644 130 filename\n" ∧
    (headerBytes 130).length = 19 ∧
    (headerBytes 130).length ≠ 18 ∧
    totalSize (List.replicate 130 0) = 150 ∧
    totalSize (List.replicate 130 0) ≠ 149 := by decide

/-- C1 (amended): flashing a 130-byte firmware file causes
`copy_to_remote` to send the header line `C0644 130 filename\n` — which is
19 bytes — followed by the 130 file bytes and exactly 1 trailing null
byte, for 150 total bytes sent, and causes the four SOC/stop/flash/upgrade
remote commands to be issued in that fixed order, ending with a final
100.0% progress report. -/
theorem C1_amended_flash_130 (contents : List Nat) (soc : Str)
    (hlen : contents.length = 130) :
    scpHeader contents.length = chars "C0644 130 filename\n" ∧
    (headerBytes contents.length).length = 19 ∧
    (headerBytes contents.length ++ contents ++ [0]).length = 150 ∧
    totalSize contents = 150 ∧
    flashOps (chars "fw.tar.gz") contents soc
      = .ok [.command socQueryCmd,
             .command stopCmd,
             .copyFile (chars "/tmp/fw.tar.gz")
               (headerBytes contents.length :: (chunksOf contents ++ [[0]])),
             .command (unpackCmd (chars "/tmp/fw.tar.gz")),
             .command (upgradeCmd soc)] ∧
    (progressPercents (transfer_file contents (chars "/tmp/fw.tar.gz")
        (.msg (.data [0])) (.msg (.data [0])) (.msg (.data [0])) none none).2).getLast?
      = some 100 := by
  have h19 : (headerBytes 130).length = 19 := by decide
  refine ⟨by rw [hlen]; decide, by rw [hlen]; decide, ?_, ?_, rfl,
    (C5_progress_monotone contents (chars "/tmp/fw.tar.gz") (.msg (.data [0]))
      (.msg (.data [0])) (.msg (.data [0])) rfl rfl rfl).2.2⟩
  · simp only [List.length_append, List.length_cons, List.length_nil, hlen, h19]
  · unfold totalSize
    simp only [hlen, h19]

/-- C1 amended, witness at a concrete 130-byte file. -/
theorem C1_amended_flash_130_witness :
    totalSize (List.replicate 130 7) = 150 :=
  (C1_amended_flash_130 (List.replicate 130 7) (chars "gk7205v300") (by simp)).2.2.2.1

/-- The reboot marker phrase (flasher.rs 315). -/
def markerChars : Str := chars "Unconditional reboot"

/-- Observable actions of `run_command`: status-sink lines and the
channel eof / close calls. -/
inductive Effect where
  | status (s : Str)
  | eofCh
  | closeCh
deriving DecidableEq

/-- The loop state of `run_command` (flasher.rs 280–282): recorded exit
status, accumulated decoded output, undecoded byte buffer — plus the
accumulated effect trace. -/
structure CmdState where
  result : Option Nat
  res : Str
  buf : List Nat
  trace : List Effect
deriving DecidableEq

/-- The per-line loop over a newly decoded chunk (flasher.rs 311–320):
each nonempty trimmed line becomes a status update; when a line contains
the reboot marker the loop stops with the hit flag set (its status update
has already been emitted; the remaining lines are never visited). -/
def scanLines : List Str → List Effect × Bool
  | [] => ([], false)
  | l :: ls =>
    if trimChars l = [] then scanLines ls
    else if hasSubList markerChars l then ([.status (trimChars l)], true)
    else ((.status (trimChars l)) :: (scanLines ls).1, (scanLines ls).2)

/-- Processing of one Data message (flasher.rs 288–325): append to the
buffer, decode the maximal valid UTF-8 prefix, append it to the output,
emit its lines, detect the reboot marker (the hit makes the caller
best-effort close and return), and keep the undecoded remainder. -/
def dataStep (s : CmdState) (d : List Nat) : CmdState × Bool :=
  if (splitValid (s.buf ++ d)).1 = [] then
    ({ s with buf := (splitValid (s.buf ++ d)).2 }, false)
  else if (scanLines (splitSep (Char.ofNat 10) (splitValid (s.buf ++ d)).1)).2 then
    ({ s with res := s.res ++ (splitValid (s.buf ++ d)).1,
              buf := (splitValid (s.buf ++ d)).2,
              trace := s.trace
                ++ (scanLines (splitSep (Char.ofNat 10) (splitValid (s.buf ++ d)).1)).1
                ++ [.closeCh] }, true)
  else
    ({ s with res := s.res ++ (splitValid (s.buf ++ d)).1,
              buf := (splitValid (s.buf ++ d)).2,
              trace := s.trace
                ++ (scanLines (splitSep (Char.ofNat 10) (splitValid (s.buf ++ d)).1)).1 },
     false)

/-- stderr forwarding (flasher.rs 326–334): for ext = 1, every piece of
the lenient decode split on newlines (empty pieces included — the Rust
loop has no emptiness check here) becomes an "stderr: "-prefixed status
line; nothing is appended to the primary output. -/
def stderrEffects (d : List Nat) : List Effect :=
  (splitSep (Char.ofNat 10) (utf8Lossy d)).map (fun l => .status (chars "stderr: " ++ l))

/-- One iteration of the message loop (flasher.rs 286–346).  The boolean
is the early-return flag raised by the reboot marker. -/
def step (s : CmdState) (m : ChannelMsg) : CmdState × Bool :=
  match m with
  | .data d => dataStep s d
  | .extendedData d ext =>
    if ext = 1 then ({ s with trace := s.trace ++ stderrEffects d }, false) else (s, false)
  | .exitStatus n => ({ s with result := some n }, false)
  | _ => (s, false)

/-- The message loop: process events until exhaustion or early return. -/
def runLoop : CmdState → List ChannelMsg → CmdState × Bool
  | s, [] => (s, false)
  | s, m :: ms =>
    let r := step s m
    if r.2 then (r.1, true) else runLoop r.1 ms

/-- Leftover-buffer handling after the loop (flasher.rs 349–358): decode
the remaining bytes leniently, append to the output, and emit the
nonempty trimmed lines (no marker check here). -/
def leftoverStep (s : CmdState) : CmdState :=
  if s.buf = [] then s
  else
    let v := utf8Lossy s.buf
    { s with res := s.res ++ v,
             trace := s.trace ++ (splitSep (Char.ofNat 10) v).filterMap
               (fun l => if trimChars l = [] then none
                         else some (Effect.status (trimChars l))) }

/-- The final "command '<cmd>' done." status line (flasher.rs 379). -/
def doneMsg (cmd : Str) : Str :=
  chars "command " ++ [squoteC] ++ cmd ++ [squoteC] ++ chars " done."

/-- The non-zero-exit error text (flasher.rs 385):
`command '<cmd>' failed with exit status: <st>`. -/
def failMsg (cmd : Str) (st : Nat) : Str :=
  chars "command " ++ [squoteC] ++ cmd ++ [squoteC] ++
    chars " failed with exit status: " ++ natChars st

/-- The state before the loop, with the opening "# <cmd>" status line
(flasher.rs 279–282). -/
def initState (cmd : Str) : CmdState :=
  ⟨none, [], [], [Effect.status (chars "# " ++ cmd)]⟩

/-- Model of `run_command` (flasher.rs 276–389).  `events` are the
messages the channel yields (each within the loop timeout) before
reporting no more; `eofRes` and `closeRes` are the outcomes of the
teardown `channel.eof()` / `channel.close()` calls (`none` = success,
`some e` = the error that `?` propagates).  The drain loop consumes
nothing observable.  On the reboot-marker early return the channel is
best-effort closed and the accumulated output returned, skipping
leftover handling, teardown and the exit-status resolution. -/
def run_command (cmd : Str) (events : List ChannelMsg)
    (eofRes closeRes : Option Str) : Except Str Str × List Effect :=
  if (runLoop (initState cmd) events).2 then
    (.ok (runLoop (initState cmd) events).1.res,
     (runLoop (initState cmd) events).1.trace)
  else
    match eofRes with
    | some e =>
      (.error e,
       (leftoverStep (runLoop (initState cmd) events).1).trace ++ [Effect.eofCh])
    | none =>
      match closeRes with
      | some e =>
        (.error e,
         (leftoverStep (runLoop (initState cmd) events).1).trace
           ++ [Effect.eofCh, Effect.closeCh])
      | none =>
        match (leftoverStep (runLoop (initState cmd) events).1).result with
        | some st =>
          if st = 0 then
            (.ok (leftoverStep (runLoop (initState cmd) events).1).res,
             (leftoverStep (runLoop (initState cmd) events).1).trace
               ++ [Effect.eofCh, Effect.closeCh, Effect.status (doneMsg cmd)])
          else
            (.error (failMsg cmd st),
             (leftoverStep (runLoop (initState cmd) events).1).trace
               ++ [Effect.eofCh, Effect.closeCh, Effect.status (doneMsg cmd)])
        | none =>
          (.ok (leftoverStep (runLoop (initState cmd) events).1).res,
           (leftoverStep (runLoop (initState cmd) events).1).trace
             ++ [Effect.eofCh, Effect.closeCh, Effect.status (doneMsg cmd)])

/-- The last exit status delivered on the channel, if any (later reports
overwrite earlier ones, flasher.rs 338). -/
def lastExitStatus (events : List ChannelMsg) : Option Nat :=
  events.foldl (fun acc m => match m with | ChannelMsg.exitStatus n => some n | _ => acc) none

theorem runLoop_append (xs ys : List ChannelMsg) : ∀ (s : CmdState),
    (runLoop s xs).2 = false →
    runLoop s (xs ++ ys) = runLoop (runLoop s xs).1 ys := by
  induction xs with
  | nil => intro s _; rfl
  | cons m ms ih =>
    intro s h
    simp only [runLoop, List.cons_append] at h ⊢
    cases hstep : (step s m).2 with
    | true => rw [hstep] at h; simp at h
    | false =>
      rw [hstep] at h
      simp only [Bool.false_eq_true, if_false, List.append_eq] at h ⊢
      exact ih (step s m).1 h

theorem dataStep_result (s : CmdState) (d : List Nat) :
    (dataStep s d).1.result = s.result := by
  unfold dataStep
  split
  · rfl
  · split <;> rfl

theorem step_result (s : CmdState) (m : ChannelMsg) :
    (step s m).1.result = match m with
      | ChannelMsg.exitStatus n => some n
      | _ => s.result := by
  cases m with
  | data d => exact dataStep_result s d
  | extendedData d ext =>
    simp only [step]
    split <;> rfl
  | exitStatus n => rfl
  | eof => rfl
  | success => rfl
  | other => rfl

theorem runLoop_result (events : List ChannelMsg) : ∀ (s : CmdState),
    (runLoop s events).2 = false →
    (runLoop s events).1.result
      = events.foldl (fun acc m => match m with
          | ChannelMsg.exitStatus n => some n | _ => acc) s.result := by
  induction events with
  | nil => intro s _; rfl
  | cons m ms ih =>
    intro s h
    simp only [runLoop, List.foldl_cons] at h ⊢
    cases hstep : (step s m).2 with
    | true => rw [hstep] at h; simp at h
    | false =>
      rw [hstep] at h
      simp only [Bool.false_eq_true, if_false] at h ⊢
      rw [ih (step s m).1 h, step_result]

theorem leftoverStep_result (s : CmdState) : (leftoverStep s).result = s.result := by
  unfold leftoverStep
  split <;> rfl

theorem leftoverStep_res (s : CmdState) :
    (leftoverStep s).res = if s.buf = [] then s.res else s.res ++ utf8Lossy s.buf := by
  unfold leftoverStep
  split <;> simp_all

/-- For a run with no early return, the returned value of `run_command` is
determined by the teardown outcomes, the recorded exit status and the
accumulated output. -/
theorem run_command_fst (cmd : Str) (events : List ChannelMsg)
    (eofRes closeRes : Option Str)
    (h : (runLoop (initState cmd) events).2 = false) :
    (run_command cmd events eofRes closeRes).1 =
      match eofRes with
      | some e => .error e
      | none => match closeRes with
        | some e => .error e
        | none => match (runLoop (initState cmd) events).1.result with
          | some st => if st = 0
              then .ok ((leftoverStep (runLoop (initState cmd) events).1).res)
              else .error (failMsg cmd st)
          | none => .ok ((leftoverStep (runLoop (initState cmd) events).1).res) := by
  unfold run_command
  rw [h]
  simp only [Bool.false_eq_true, if_false]
  cases eofRes with
  | some e => rfl
  | none =>
    cases closeRes with
    | some e => rfl
    | none =>
      simp only [leftoverStep_result]
      cases (runLoop (initState cmd) events).1.result with
      | none => rfl
      | some st =>
        by_cases hst : st = 0
        · simp [hst]
        · simp [hst]

/-- C3: for every invocation of `run_command` that reaches resolution (no
reboot-marker early return, teardown succeeds): if an exit status was
recorded and is non-zero, it returns an Error naming the command and the
status; otherwise (recorded status zero, or no exit status ever reported)
it returns success with the accumulated output text — and this outcome is
independent of whether Data messages arrived after the exit-status
message, since the result depends only on the last exit status recorded
over the whole event list, never treated as stream completion. -/
theorem C3_run_command_resolution (cmd : Str) (events : List ChannelMsg)
    (h : (runLoop (initState cmd) events).2 = false) :
    (run_command cmd events none none).1 =
      match lastExitStatus events with
      | some st => if st = 0
          then .ok ((leftoverStep (runLoop (initState cmd) events).1).res)
          else .error (failMsg cmd st)
      | none => .ok ((leftoverStep (runLoop (initState cmd) events).1).res) := by
  rw [run_command_fst cmd events none none h, runLoop_result events (initState cmd) h]
  rfl

/-- C3 witness: a run that delivers data, then exit status 3, then more
data resolves to the error naming the command and status 3. -/
theorem C3_run_command_resolution_witness :
    (run_command (chars "fw_printenv -n soc")
        [ChannelMsg.data (asciiBytes "out\n"), ChannelMsg.exitStatus 3,
         ChannelMsg.data (asciiBytes "late")] none none).1
      = .error (failMsg (chars "fw_printenv -n soc") 3) :=
  C3_run_command_resolution (chars "fw_printenv -n soc")
    [ChannelMsg.data (asciiBytes "out\n"), ChannelMsg.exitStatus 3,
     ChannelMsg.data (asciiBytes "late")] (by decide)

/-- When a Data message raises the reboot-marker hit, the accumulated
output gains this chunk's decoded text, and the trace gains exactly the
chunk's status lines followed by one best-effort close — nothing else. -/
theorem dataStep_hit (s : CmdState) (d : List Nat)
    (hhit : (dataStep s d).2 = true) :
    (dataStep s d).1.res = s.res ++ (splitValid (s.buf ++ d)).1 ∧
    (dataStep s d).1.trace
      = s.trace
          ++ (scanLines (splitSep (Char.ofNat 10) (splitValid (s.buf ++ d)).1)).1
          ++ [Effect.closeCh] := by
  unfold dataStep at hhit ⊢
  split at hhit
  · simp at hhit
  · split at hhit
    · rename_i hv hsl
      rw [if_neg hv, if_pos hsl]
      exact ⟨rfl, rfl⟩
    · simp at hhit

/-- On the reboot-marker hit, `run_command` returns the accumulated output
and the trace as of the hit, ignoring every later event and the teardown
outcomes. -/
theorem run_command_early (cmd : Str) (pre : List ChannelMsg) (d : List Nat)
    (post : List ChannelMsg) (eofRes closeRes : Option Str)
    (hpre : (runLoop (initState cmd) pre).2 = false)
    (hhit : (dataStep (runLoop (initState cmd) pre).1 d).2 = true) :
    run_command cmd (pre ++ ChannelMsg.data d :: post) eofRes closeRes
      = (.ok (dataStep (runLoop (initState cmd) pre).1 d).1.res,
         (dataStep (runLoop (initState cmd) pre).1 d).1.trace) := by
  unfold run_command
  rw [runLoop_append pre (ChannelMsg.data d :: post) (initState cmd) hpre]
  show (if (runLoop (runLoop (initState cmd) pre).1 (ChannelMsg.data d :: post)).2
      then _ else _) = _
  simp only [runLoop, step, hhit, if_true]

theorem scanLines_statuses : ∀ (ls : List Str), ∀ x ∈ (scanLines ls).1,
    ∃ t, x = Effect.status t := by
  intro ls
  induction ls with
  | nil => intro x hx; simp [scanLines] at hx
  | cons l ls ih =>
    intro x hx
    simp only [scanLines] at hx
    split at hx
    · exact ih x hx
    · split at hx
      · simp only [List.mem_singleton] at hx
        exact ⟨_, hx⟩
      · simp only [List.mem_cons] at hx
        rcases hx with hx | hx
        · exact ⟨_, hx⟩
        · exact ih x hx

/-- C2: if any stdout line received by `run_command` contains the fixed
reboot-marker phrase, then immediately after that line is processed
`run_command` best-effort closes the channel and returns the output
accumulated so far: the result is the accumulated output, later events are
never consumed, and everything appended to the trace after the chunk's
status lines is the single close — no EOF, no drain loop, and no final
"command done" status line. -/
theorem C2_reboot_marker_early_return (cmd : Str) (pre : List ChannelMsg)
    (d : List Nat) (post : List ChannelMsg) (eofRes closeRes : Option Str)
    (hpre : (runLoop (initState cmd) pre).2 = false)
    (hhit : (dataStep (runLoop (initState cmd) pre).1 d).2 = true) :
    run_command cmd (pre ++ ChannelMsg.data d :: post) eofRes closeRes
      = (.ok (dataStep (runLoop (initState cmd) pre).1 d).1.res,
         (runLoop (initState cmd) pre).1.trace
           ++ (scanLines (splitSep (Char.ofNat 10)
                 (splitValid ((runLoop (initState cmd) pre).1.buf ++ d)).1)).1
           ++ [Effect.closeCh]) ∧
    run_command cmd (pre ++ ChannelMsg.data d :: post) eofRes closeRes
      = run_command cmd (pre ++ [ChannelMsg.data d]) eofRes closeRes ∧
    (∀ x ∈ (scanLines (splitSep (Char.ofNat 10)
        (splitValid ((runLoop (initState cmd) pre).1.buf ++ d)).1)).1,
      ∃ t, x = Effect.status t) := by
  refine ⟨?_, ?_, scanLines_statuses _⟩
  · rw [run_command_early cmd pre d post eofRes closeRes hpre hhit,
      (dataStep_hit _ _ hhit).2]
  · rw [run_command_early cmd pre d post eofRes closeRes hpre hhit,
      run_command_early cmd pre d [] eofRes closeRes hpre hhit]

/-- C2 witness: a stream whose first line is
"Unconditional reboot in 5 seconds" makes `run_command` ignore the
following Data message entirely. -/
theorem C2_reboot_marker_early_return_witness :
    run_command (chars "sysupgrade")
        ([] ++ ChannelMsg.data (asciiBytes "Unconditional reboot in 5 seconds\n")
          :: [ChannelMsg.data (asciiBytes "late")]) none none
      = run_command (chars "sysupgrade")
          ([] ++ [ChannelMsg.data (asciiBytes "Unconditional reboot in 5 seconds\n")])
          none none :=
  (C2_reboot_marker_early_return (chars "sysupgrade") []
    (asciiBytes "Unconditional reboot in 5 seconds\n")
    [ChannelMsg.data (asciiBytes "late")] none none rfl (by decide)).2.1

/-- The undecoded remainder of the split never starts with a decodable
code point — that is what makes it the remainder. -/
theorem splitValid_snd (l : List Nat) : decodeOne (splitValid l).2 = none := by
  match hd : decodeOne l with
  | none => rw [splitValid_none hd]; exact hd
  | some p =>
    obtain ⟨c, rest⟩ := p
    rw [splitValid_some hd]
    exact splitValid_snd rest
termination_by l.length
decreasing_by exact decodeOne_length hd

theorem splitValid_of_fst_nil {l : List Nat} (h : (splitValid l).1 = []) :
    splitValid l = ([], l) := by
  match hd : decodeOne l with
  | none => exact splitValid_none hd
  | some p =>
    obtain ⟨c, rest⟩ := p
    rw [splitValid_some hd] at h
    simp at h

theorem hasSubList_append_right {m a : List Char} (b : List Char)
    (h : hasSubList m a = true) : hasSubList m (a ++ b) = true := by
  rw [hasSubList_iff] at h ⊢
  obtain ⟨p, q, rfl⟩ := h
  exact ⟨p, q ++ b, by simp [List.append_assoc]⟩

theorem hasSubList_append_left {m b : List Char} (a : List Char)
    (h : hasSubList m b = true) : hasSubList m (a ++ b) = true := by
  rw [hasSubList_iff] at h ⊢
  obtain ⟨p, q, rfl⟩ := h
  exact ⟨a ++ p, q, by simp [List.append_assoc]⟩

theorem splitSep_head (sep : Char) : ∀ (v : List Char),
    ∃ h t, splitSep sep v = h :: t ∧ ∃ q, v = h ++ q := by
  intro v
  induction v with
  | nil => exact ⟨[], [], rfl, [], rfl⟩
  | cons c rest ih =>
    by_cases hc : c = sep
    · refine ⟨[], splitSep sep rest, ?_, c :: rest, rfl⟩
      simp [splitSep, hc]
    · obtain ⟨h0, t0, heq, q0, hq⟩ := ih
      refine ⟨c :: h0, t0, ?_, q0, by simp [hq]⟩
      simp [splitSep, hc, heq]

/-- Every piece produced by the separator split occurs contiguously in
the original list. -/
theorem splitSep_infix (sep : Char) : ∀ (v : List Char), ∀ l ∈ splitSep sep v,
    ∃ p q, v = p ++ l ++ q := by
  intro v
  induction v with
  | nil =>
    intro l hl
    simp only [splitSep, List.mem_singleton] at hl
    subst hl
    exact ⟨[], [], rfl⟩
  | cons c rest ih =>
    intro l hl
    simp only [splitSep] at hl
    by_cases hc : c = sep
    · rw [if_pos hc] at hl
      rcases List.mem_cons.mp hl with h1 | h1
      · subst h1
        exact ⟨[], c :: rest, rfl⟩
      · obtain ⟨p, q, hpq⟩ := ih l h1
        exact ⟨c :: p, q, by simp [hpq]⟩
    · rw [if_neg hc] at hl
      obtain ⟨h0, t0, heq, q0, hq⟩ := splitSep_head sep rest
      rw [heq] at hl
      rcases List.mem_cons.mp hl with h1 | h1
      · subst h1
        exact ⟨[], q0, by simp [hq]⟩
      · have : l ∈ splitSep sep rest := by rw [heq]; exact List.mem_cons_of_mem _ h1
        obtain ⟨p, q, hpq⟩ := ih l this
        exact ⟨c :: p, q, by simp [hpq]⟩

theorem scanLines_hit : ∀ (ls : List Str), (scanLines ls).2 = true →
    ∃ l ∈ ls, hasSubList markerChars l = true := by
  intro ls
  induction ls with
  | nil => intro h; simp [scanLines] at h
  | cons l ls ih =>
    intro h
    simp only [scanLines] at h
    split at h
    · obtain ⟨l0, hl0, hm⟩ := ih h
      exact ⟨l0, List.mem_cons_of_mem _ hl0, hm⟩
    · split at h
      · rename_i hmark
        exact ⟨l, List.mem_cons_self _ _, hmark⟩
      · obtain ⟨l0, hl0, hm⟩ := ih h
        exact ⟨l0, List.mem_cons_of_mem _ hl0, hm⟩

/-- Processing a Data-only event stream whose decoded text never shows
the reboot marker: no early return happens, the accumulated output is the
decoded maximal valid prefix of all bytes received (in delivery order,
independent of the fragmentation), the buffer is the undecoded remainder,
and the recorded exit status is untouched. -/
theorem runLoop_data : ∀ (ds : List (List Nat)) (s : CmdState),
    decodeOne s.buf = none →
    hasSubList markerChars (splitValid (s.buf ++ ds.flatten)).1 = false →
    (runLoop s (ds.map ChannelMsg.data)).2 = false ∧
    (runLoop s (ds.map ChannelMsg.data)).1.res
      = s.res ++ (splitValid (s.buf ++ ds.flatten)).1 ∧
    (runLoop s (ds.map ChannelMsg.data)).1.buf
      = (splitValid (s.buf ++ ds.flatten)).2 ∧
    (runLoop s (ds.map ChannelMsg.data)).1.result = s.result := by
  intro ds
  induction ds with
  | nil =>
    intro s hbuf _
    rw [List.flatten_nil, List.append_nil, splitValid_none hbuf]
    exact ⟨rfl, by simp [runLoop], rfl, rfl⟩
  | cons d ds ih =>
    intro s hbuf hm
    have hassoc : s.buf ++ (d :: ds).flatten = s.buf ++ d ++ ds.flatten := by
      rw [List.flatten_cons, ← List.append_assoc]
    rw [hassoc] at hm ⊢
    have hsa1 : (splitValid (s.buf ++ d ++ ds.flatten)).1
        = (splitValid (s.buf ++ d)).1
          ++ (splitValid ((splitValid (s.buf ++ d)).2 ++ ds.flatten)).1 := by
      rw [splitValid_append]
    have hsa2 : (splitValid (s.buf ++ d ++ ds.flatten)).2
        = (splitValid ((splitValid (s.buf ++ d)).2 ++ ds.flatten)).2 := by
      rw [splitValid_append]
    rw [hsa1] at hm
    have hmtail : hasSubList markerChars
        (splitValid ((splitValid (s.buf ++ d)).2 ++ ds.flatten)).1 = false := by
      cases hval : hasSubList markerChars
          (splitValid ((splitValid (s.buf ++ d)).2 ++ ds.flatten)).1 with
      | false => rfl
      | true =>
        have hc := hasSubList_append_left (splitValid (s.buf ++ d)).1 hval
        rw [hm] at hc
        simp at hc
    have hbuf2 : decodeOne (splitValid (s.buf ++ d)).2 = none := splitValid_snd _
    simp only [List.map_cons, runLoop, step]
    by_cases hvnil : (splitValid (s.buf ++ d)).1 = []
    · have hds : dataStep s d = ({ s with buf := (splitValid (s.buf ++ d)).2 }, false) := by
        unfold dataStep
        rw [if_pos hvnil]
      rw [hds]
      simp only [Bool.false_eq_true, if_false]
      obtain ⟨he, hres, hb, hr⟩ := ih { s with buf := (splitValid (s.buf ++ d)).2 }
        hbuf2 hmtail
      refine ⟨he, ?_, ?_, hr⟩
      · rw [hres, hsa1, hvnil]
        simp
      · rw [hb, hsa2]
    · have hslfalse : (scanLines (splitSep (Char.ofNat 10)
          (splitValid (s.buf ++ d)).1)).2 = false := by
        cases hsl : (scanLines (splitSep (Char.ofNat 10)
            (splitValid (s.buf ++ d)).1)).2 with
        | false => rfl
        | true =>
          obtain ⟨l, hl, hml⟩ := scanLines_hit _ hsl
          obtain ⟨p, q, hpq⟩ := splitSep_infix _ _ l hl
          have h2 := hasSubList_append_left p (hasSubList_append_right q hml)
          rw [← List.append_assoc, ← hpq] at h2
          have h3 := hasSubList_append_right
            (splitValid ((splitValid (s.buf ++ d)).2 ++ ds.flatten)).1 h2
          rw [hm] at h3
          simp at h3
      have hds : dataStep s d
          = ({ s with res := s.res ++ (splitValid (s.buf ++ d)).1,
                      buf := (splitValid (s.buf ++ d)).2,
                      trace := s.trace ++ (scanLines (splitSep (Char.ofNat 10)
                        (splitValid (s.buf ++ d)).1)).1 }, false) := by
        unfold dataStep
        rw [if_neg hvnil, if_neg (by simp [hslfalse])]
      rw [hds]
      simp only [Bool.false_eq_true, if_false]
      obtain ⟨he, hres, hb, hr⟩ := ih
        { s with res := s.res ++ (splitValid (s.buf ++ d)).1,
                 buf := (splitValid (s.buf ++ d)).2,
                 trace := s.trace ++ (scanLines (splitSep (Char.ofNat 10)
                   (splitValid (s.buf ++ d)).1)).1 }
        hbuf2 hmtail
      refine ⟨he, ?_, ?_, hr⟩
      · rw [hres, hsa1]
        simp [List.append_assoc]
      · rw [hb, hsa2]

/-- C6 counterexample: the same byte sequence delivered as one Data
message versus split at the newline yields different returned outputs —
the reboot-marker early return hands back whatever part of the current
chunk had been decoded together with the marker line, so output after the
marker survives in one fragmentation and is lost in the other. -/
theorem C6_counterexample_fragmentation :
    asciiBytes "Unconditional reboot\nXYZ"
      = asciiBytes "Unconditional reboot\n" ++ asciiBytes "XYZ" ∧
    (run_command (chars "reboot")
        [ChannelMsg.data (asciiBytes "Unconditional reboot\nXYZ")] none none).1
      = .ok (chars "Unconditional reboot\nXYZ") ∧
    (run_command (chars "reboot")
        [ChannelMsg.data (asciiBytes "Unconditional reboot\n"),
         ChannelMsg.data (asciiBytes "XYZ")] none none).1
      = .ok (chars "Unconditional reboot\n") ∧
    chars "Unconditional reboot\nXYZ" ≠ chars "Unconditional reboot\n" := by
  exact ⟨by decide, rfl, rfl, by decide⟩

/-- C6 (amended): `run_command` accumulates stdout text in delivery order
regardless of how the transport fragments the byte stream across Data
messages — for any two fragmentations of the same byte sequence,
including a split inside a multi-byte UTF-8 unit, the returned output is
identical (undecodable suffix bytes are carried over as an undecoded
remainder) — provided the reboot-marker phrase does not occur in the
decoded text, since the marker's early return depends on how lines are
grouped into chunks. -/
theorem C6_amended_fragmentation_invariance (cmd : Str) (ds1 ds2 : List (List Nat))
    (eofRes closeRes : Option Str)
    (hjoin : ds1.flatten = ds2.flatten)
    (hm : hasSubList markerChars (splitValid ds1.flatten).1 = false) :
    (run_command cmd (ds1.map ChannelMsg.data) eofRes closeRes).1
      = (run_command cmd (ds2.map ChannelMsg.data) eofRes closeRes).1 := by
  have hinit : decodeOne (initState cmd).buf = none := rfl
  have h1 := runLoop_data ds1 (initState cmd) hinit (by simpa using hm)
  have h2 := runLoop_data ds2 (initState cmd) hinit (by simpa using (hjoin ▸ hm))
  rw [run_command_fst _ _ _ _ h1.1, run_command_fst _ _ _ _ h2.1]
  cases eofRes with
  | some e => rfl
  | none =>
    cases closeRes with
    | some e => rfl
    | none =>
      have hresq : (runLoop (initState cmd) (ds1.map ChannelMsg.data)).1.res
          = (runLoop (initState cmd) (ds2.map ChannelMsg.data)).1.res := by
        rw [h1.2.1, h2.2.1, hjoin]
      have hbufq : (runLoop (initState cmd) (ds1.map ChannelMsg.data)).1.buf
          = (runLoop (initState cmd) (ds2.map ChannelMsg.data)).1.buf := by
        rw [h1.2.2.1, h2.2.2.1, hjoin]
      have hr1 : (runLoop (initState cmd) (ds1.map ChannelMsg.data)).1.result = none := by
        rw [h1.2.2.2]; rfl
      have hr2 : (runLoop (initState cmd) (ds2.map ChannelMsg.data)).1.result = none := by
        rw [h2.2.2.2]; rfl
      simp only [leftoverStep_result, hr1, hr2]
      rw [leftoverStep_res, leftoverStep_res, hresq, hbufq]

/-- C6 amended, witness: a two-byte stream split into single bytes gives
the same returned output as the unsplit delivery. -/
theorem C6_amended_fragmentation_invariance_witness :
    (run_command (chars "ls") ([asciiBytes "ab"].map ChannelMsg.data) none none).1
      = (run_command (chars "ls")
          ([asciiBytes "a", asciiBytes "b"].map ChannelMsg.data) none none).1 :=
  C6_amended_fragmentation_invariance (chars "ls") [asciiBytes "ab"]
    [asciiBytes "a", asciiBytes "b"] none none (by decide) (by decide)

theorem scanLines_no_close (ls : List Str) : Effect.closeCh ∉ (scanLines ls).1 := by
  intro hmem
  obtain ⟨t, ht⟩ := scanLines_statuses ls _ hmem
  simp at ht

theorem stderrEffects_no_close (d : List Nat) : Effect.closeCh ∉ stderrEffects d := by
  intro hmem
  simp only [stderrEffects, List.mem_map] at hmem
  obtain ⟨l, -, hl⟩ := hmem
  simp at hl

theorem dataStep_no_close (s : CmdState) (d : List Nat)
    (hne : (dataStep s d).2 = false) (h : Effect.closeCh ∉ s.trace) :
    Effect.closeCh ∉ (dataStep s d).1.trace := by
  unfold dataStep at hne ⊢
  split at hne
  · rename_i hc
    rw [if_pos hc]
    exact h
  · rename_i hc
    split at hne
    · simp at hne
    · rename_i hc2
      rw [if_neg hc, if_neg hc2]
      intro hmem
      rcases List.mem_append.mp hmem with hmem | hmem
      · exact h hmem
      · exact scanLines_no_close _ hmem

theorem step_no_close (s : CmdState) (m : ChannelMsg)
    (hne : (step s m).2 = false) (h : Effect.closeCh ∉ s.trace) :
    Effect.closeCh ∉ (step s m).1.trace := by
  cases m with
  | data d => exact dataStep_no_close s d hne h
  | extendedData d ext =>
    simp only [step]
    split
    · intro hmem
      rcases List.mem_append.mp hmem with hmem | hmem
      · exact h hmem
      · exact stderrEffects_no_close d hmem
    · exact h
  | exitStatus n => exact h
  | eof => exact h
  | success => exact h
  | other => exact h

theorem runLoop_no_close (events : List ChannelMsg) : ∀ (s : CmdState),
    (runLoop s events).2 = false → Effect.closeCh ∉ s.trace →
    Effect.closeCh ∉ (runLoop s events).1.trace := by
  induction events with
  | nil => intro s _ h; exact h
  | cons m ms ih =>
    intro s hne h
    simp only [runLoop] at hne ⊢
    cases hstep : (step s m).2 with
    | true => rw [hstep] at hne; simp at hne
    | false =>
      rw [hstep] at hne
      simp only [Bool.false_eq_true, if_false] at hne ⊢
      exact ih _ hne (step_no_close s m hstep h)

theorem leftoverStep_no_close (s : CmdState) (h : Effect.closeCh ∉ s.trace) :
    Effect.closeCh ∉ (leftoverStep s).trace := by
  unfold leftoverStep
  split
  · exact h
  · intro hmem
    rcases List.mem_append.mp hmem with hmem | hmem
    · exact h hmem
    · simp only [List.mem_filterMap] at hmem
      obtain ⟨l, -, hl⟩ := hmem
      split at hl <;> simp at hl

theorem chunkEffects_no_close : ∀ (cs : List (List Nat)) (sent total : Nat),
    TEffect.closeCh ∉ chunkEffects cs sent total := by
  intro cs
  induction cs with
  | nil => intro sent total hmem; simp [chunkEffects] at hmem
  | cons c cs ih =>
    intro sent total hmem
    simp only [chunkEffects, List.mem_cons] at hmem
    rcases hmem with hmem | hmem | hmem
    · exact TEffect.noConfusion hmem
    · exact TEffect.noConfusion hmem
    · exact ih _ _ hmem

/-- C9 counterexample: when the very first acknowledgment wait fails (the
channel reports closure), `transfer_file` returns the error immediately
via `?` — the original error is reported, but no close is attempted on
the channel, contrary to the claim that close is attempted even when an
earlier lifecycle step failed. -/
theorem C9_counterexample_no_close_on_failure :
    (transfer_file [] (chars "/tmp/x") AckEvent.closed AckEvent.closed AckEvent.closed
        none none).1 = .error (chars "Channel closed unexpectedly") ∧
    TEffect.closeCh ∉ (transfer_file [] (chars "/tmp/x") AckEvent.closed AckEvent.closed
        AckEvent.closed none none).2 := by
  exact ⟨rfl, by decide⟩

/-- C9 (amended): close is attempted on the success path (and, in
`run_command`, on the reboot-marker early return); when an earlier step of
the channel's lifecycle (acknowledgment wait, data send, exec, EOF) fails,
the function returns that exact error immediately without attempting
close, so a cleanup failure can never mask the original error — cleanup
only runs when every earlier step succeeded; when the final close itself
fails as the last step attempted, its error becomes the reported one. -/
theorem C9_amended_cleanup (contents : List Nat) (dst : Str) (a1 a2 a3 : AckEvent)
    (e : Str) (cmd : Str) (events : List ChannelMsg) :
    (∀ err, wait_for_acknowledgment a1 = .error err →
      (transfer_file contents dst a1 a2 a3 none none).1 = .error err ∧
      TEffect.closeCh ∉ (transfer_file contents dst a1 a2 a3 none none).2) ∧
    (wait_for_acknowledgment a1 = .ok () →
     wait_for_acknowledgment a2 = .ok () →
     wait_for_acknowledgment a3 = .ok () →
      ((transfer_file contents dst a1 a2 a3 (some e) none).1 = .error e ∧
       TEffect.closeCh ∉ (transfer_file contents dst a1 a2 a3 (some e) none).2) ∧
      TEffect.closeCh ∈ (transfer_file contents dst a1 a2 a3 none none).2 ∧
      ((transfer_file contents dst a1 a2 a3 none (some e)).1 = .error e ∧
       TEffect.closeCh ∈ (transfer_file contents dst a1 a2 a3 none (some e)).2)) ∧
    ((runLoop (initState cmd) events).2 = false →
      (run_command cmd events (some e) none).1 = .error e ∧
      Effect.closeCh ∉ (run_command cmd events (some e) none).2) := by
  refine ⟨fun err herr => ⟨?_, ?_⟩, fun h1 h2 h3 => ⟨⟨?_, ?_⟩, ?_, ?_, ?_⟩,
    fun hne => ⟨?_, ?_⟩⟩
  · simp only [transfer_file, herr]
  · simp only [transfer_file, herr]
    simp
  · simp only [transfer_file, h1, h2, h3]
  · simp only [transfer_file, h1, h2, h3]
    simp [List.mem_append, chunkEffects_no_close]
  · rw [transfer_file_ok contents dst a1 a2 a3 h1 h2 h3]
    simp
  · simp only [transfer_file, h1, h2, h3]
  · simp only [transfer_file, h1, h2, h3]
    simp
  · simp only [run_command, hne, Bool.false_eq_true, if_false]
  · simp only [run_command, hne, Bool.false_eq_true, if_false]
    intro hmem
    rcases List.mem_append.mp hmem with hmem | hmem
    · exact leftoverStep_no_close _
        (runLoop_no_close events (initState cmd) hne (by simp [initState])) hmem
    · simp at hmem

/-- C9 amended, witness: concrete instances of the failed-acknowledgment,
teardown and success paths. -/
theorem C9_amended_cleanup_witness :
    (transfer_file [5] (chars "/tmp/x") AckEvent.timeout AckEvent.timeout
        AckEvent.timeout none none).1
      = .error (chars "Timeout waiting for SCP acknowledgment") ∧
    TEffect.closeCh ∉ (transfer_file [5] (chars "/tmp/x") AckEvent.timeout
        AckEvent.timeout AckEvent.timeout none none).2 :=
  (C9_amended_cleanup [5] (chars "/tmp/x") AckEvent.timeout AckEvent.timeout
    AckEvent.timeout (chars "boom") (chars "ls") []).1
    (chars "Timeout waiting for SCP acknowledgment") rfl

end Flasher
